import Mathlib

/-!
Verification of the rule-based invoice extraction engine (`src/extraction.py`)
against its natural-language specification.

The Python code is shallowly embedded: text is a `String` processed as a
`List Char`; the concrete regular expressions of the source are translated
into explicit scanner functions with Python's leftmost, non-overlapping,
greedy-with-backtracking `findall`/`search` semantics; Python floats are
modelled as exact rationals together with an explicit IEEE-754 binary64
round-to-nearest-even rounding function (`f64ofRat`), so every arithmetic
step of the source (`float(...)` parses, `+`, `-`, `/`, `*`, comparisons
against the literal `0.01`) is mirrored at its actual double precision.
Overflow and subnormals are outside the magnitudes occurring here and are
not modelled.  Python's `None` for the input text is modelled by `Option`.
All definitions are executable so that concrete runs are settled by `decide`.
-/

namespace InvoiceProc

/-! ### Character classes (ASCII fragment of the Python `re` classes) -/

/-- Python `\d` on the inputs considered here (ASCII digits). -/
def isDigitC (c : Char) : Bool := 48 ≤ c.toNat && c.toNat ≤ 57

/-- Python `\s` (ASCII whitespace). -/
def isSpaceC (c : Char) : Bool :=
  c = ' ' || c = '\t' || c = '\n' || c = '\r' || c = '\x0b' || c = '\x0c'

/-- Python `[A-Za-z]`. -/
def isAlphaC (c : Char) : Bool :=
  (65 ≤ c.toNat && c.toNat ≤ 90) || (97 ≤ c.toNat && c.toNat ≤ 122)

/-- ASCII lowering, the fragment of Python `str.lower` exercised here. -/
def lowerC (c : Char) : Char :=
  if 65 ≤ c.toNat && c.toNat ≤ 90 then Char.ofNat (c.toNat + 32) else c

/-- ASCII raising, the fragment of Python `str.upper` exercised here. -/
def upperC (c : Char) : Char :=
  if 97 ≤ c.toNat && c.toNat ≤ 122 then Char.ofNat (c.toNat - 32) else c

def lowerS (cs : List Char) : List Char := cs.map lowerC

/-- Does `hay` start with `needle`? -/
def startsWithSeq : List Char → List Char → Bool
  | [], _ => true
  | _ :: _, [] => false
  | n :: ns, h :: hs => n == h && startsWithSeq ns hs

/-- Python substring containment `needle in hay`. -/
def hasSub (needle : List Char) : List Char → Bool
  | [] => needle.isEmpty
  | h :: t => startsWithSeq needle (h :: t) || hasSub needle t

/-- Python `text.split('\n')`. -/
def splitNl : List Char → List (List Char)
  | [] => [[]]
  | c :: t =>
    if c = '\n' then [] :: splitNl t
    else
      match splitNl t with
      | [] => [[c]]
      | l :: ls => (c :: l) :: ls

/-- Line-break characters recognised by Python `str.splitlines`. -/
def isLineBreakC (c : Char) : Bool :=
  c = '\n' || c = '\r' || c = '\x0b' || c = '\x0c' || c = '\x1c' ||
  c = '\x1d' || c = '\x1e' || c = '\x85' || c = '\u2028' || c = '\u2029'

def splitLinesAux : List Char → List Char → List (List Char)
  | cur, [] => if cur.isEmpty then [] else [cur.reverse]
  | cur, '\r' :: '\n' :: t => cur.reverse :: splitLinesAux [] t
  | cur, c :: t =>
    if isLineBreakC c then cur.reverse :: splitLinesAux [] t
    else splitLinesAux (c :: cur) t

/-- Python `text.splitlines()`. -/
def splitLinesPy (cs : List Char) : List (List Char) := splitLinesAux [] cs

/-- Python `str.strip()` (ASCII whitespace). -/
def stripWs (cs : List Char) : List Char :=
  ((cs.dropWhile isSpaceC).reverse.dropWhile isSpaceC).reverse

/-- Digits of a numeral read as a natural number (Python `int` of a digit run). -/
def natOfDigits (cs : List Char) : ℕ :=
  cs.foldl (fun a c => a * 10 + (c.toNat - 48)) 0

/-! ### Exact rational arithmetic with kernel-reducible operations

Core `Rat` arithmetic does not reduce inside the kernel, so the program's
numbers are carried by `Frac`, an always-normalized fraction (non-negative
denominator, reduced by `Nat.gcd`).  Every operation below mirrors exact
rational arithmetic; `Frac.toRat` is the semantic bridge to `ℚ`. -/

structure Frac where
  num : ℤ
  den : ℕ
deriving DecidableEq

/-- The rational value of a fraction. -/
def Frac.toRat (a : Frac) : ℚ := (a.num : ℚ) / (a.den : ℚ)

/-- Normalizing constructor (callers always pass a positive denominator). -/
def Frac.norm (n : ℤ) (d : ℕ) : Frac :=
  let g := Nat.gcd n.natAbs d
  if g = 0 then ⟨0, 1⟩ else ⟨Int.tdiv n (g : ℤ), d / g⟩

def Frac.ofInt (n : ℤ) : Frac := ⟨n, 1⟩

def Frac.add (a b : Frac) : Frac :=
  Frac.norm (a.num * (b.den : ℤ) + b.num * (a.den : ℤ)) (a.den * b.den)

def Frac.sub (a b : Frac) : Frac :=
  Frac.norm (a.num * (b.den : ℤ) - b.num * (a.den : ℤ)) (a.den * b.den)

def Frac.mul (a b : Frac) : Frac := Frac.norm (a.num * b.num) (a.den * b.den)

/-- Exact division (never called with a zero divisor by this program). -/
def Frac.divF (a b : Frac) : Frac :=
  if b.num = 0 then ⟨0, 1⟩
  else
    Frac.norm (a.num * (if b.num < 0 then -(b.den : ℤ) else (b.den : ℤ)))
      (a.den * b.num.natAbs)

/-- Exact strict comparison by cross-multiplication. -/
def Frac.blt (a b : Frac) : Bool := a.num * (b.den : ℤ) < b.num * (a.den : ℤ)

/-- `⌊a⌋`. -/
def Frac.floorZ (a : Frac) : ℤ := Int.fdiv a.num (a.den : ℤ)

/-- Round a fraction to the nearest integer, ties to even. -/
def roundHalfEvenZ (a : Frac) : ℤ :=
  let f := a.floorZ
  let r := a.sub (Frac.ofInt f)
  if r.blt ⟨1, 2⟩ then f
  else if Frac.blt ⟨1, 2⟩ r then f + 1
  else if f % 2 = 0 then f else f + 1

/-- Fueled `⌊log₂ q⌋` for positive `q`; fuel 400 covers every magnitude
arising from the texts considered here. -/
def ilog2F : ℕ → Frac → ℤ
  | 0, _ => 0
  | fuel + 1, q =>
    if q.blt ⟨1, 1⟩ then ilog2F fuel (q.mul ⟨2, 1⟩) - 1
    else if Frac.blt q ⟨2, 1⟩ then 0
    else ilog2F fuel (q.divF ⟨2, 1⟩) + 1

/-- `2 ^ e` for an integer exponent. -/
def pow2F (e : ℤ) : Frac :=
  if 0 ≤ e then ⟨((2 ^ e.toNat : ℕ) : ℤ), 1⟩ else ⟨1, 2 ^ (-e).toNat⟩

/-- Round a positive fraction to 53 significant bits, ties to even. -/
def f64posRound (q : Frac) : Frac :=
  let e := ilog2F 400 q
  (Frac.ofInt (roundHalfEvenZ (q.mul (pow2F (52 - e))))).mul (pow2F (e - 52))

/-- The IEEE-754 binary64 value nearest to `q` (round to nearest, ties to
even), as an exact fraction.  Magnitudes beyond the normal range do not
occur in this development and are not modelled. -/
def f64ofF (q : Frac) : Frac :=
  if q.num = 0 then ⟨0, 1⟩
  else if q.num < 0 then
    let r := f64posRound ⟨-q.num, q.den⟩
    ⟨-r.num, r.den⟩
  else f64posRound q

/-- Python float addition. -/
def f64add (a b : Frac) : Frac := f64ofF (a.add b)

/-- Python float subtraction. -/
def f64sub (a b : Frac) : Frac := f64ofF (a.sub b)

/-- Python float multiplication. -/
def f64mul (a b : Frac) : Frac := f64ofF (a.mul b)

/-- Python float true division. -/
def f64div (a b : Frac) : Frac := f64ofF (a.divF b)

/-- Python `abs` on floats (exact). -/
def f64abs (q : Frac) : Frac := if q.num < 0 then ⟨-q.num, q.den⟩ else q

/-- Python `int(...)` applied to a float: truncation toward zero. -/
def pyInt (q : Frac) : ℤ :=
  if 0 ≤ q.num then q.floorZ else - Frac.floorZ ⟨-q.num, q.den⟩

/-- The double nearest to the decimal `ip.fp` (with `fp` of length `k`). -/
def f64ofDecimal (ip fp : ℕ) (k : ℕ) : Frac :=
  f64ofF (Frac.norm ((ip : ℤ) * (10 ^ k : ℕ) + (fp : ℤ)) (10 ^ k))

/-! ### Python `float(...)` of a cleaned numeric residue

The residues reaching `float` in this program consist only of ASCII digits
and `'.'` (commas are replaced beforehand).  On that domain Python `float`
succeeds exactly when there is at least one digit and at most one dot, and
returns the correctly rounded double of the decimal value. -/

/-- Split on `'.'` (Python-style `split`, keeping empty parts). -/
def splitOnDot : List Char → List (List Char)
  | [] => [[]]
  | c :: t =>
    if c = '.' then [] :: splitOnDot t
    else
      match splitOnDot t with
      | [] => [[c]]
      | l :: ls => (c :: l) :: ls

/-- `float(residue)` for a digits-and-dots residue: `some` of the rounded
double on success, `none` when Python would raise `ValueError`. -/
def pyFloatParse (cs : List Char) : Option Frac :=
  if cs.all (fun c => isDigitC c || c = '.') then
    match splitOnDot cs with
    | [ip] => if ip.isEmpty then none else some (f64ofDecimal (natOfDigits ip) 0 0)
    | [ip, fp] =>
      if ip.isEmpty && fp.isEmpty then none
      else some (f64ofDecimal (natOfDigits ip) (natOfDigits fp) fp.length)
    | _ => none
  else none

/-! ### Generic `re.findall` driver

Python `findall` scans left to right, takes the leftmost match, and resumes
immediately after it (all patterns in this program match at least one
character).  The fuel argument is instantiated with the text length. -/

def findAllWith (m : List Char → Option (List Char × List Char)) :
    ℕ → List Char → List (List Char)
  | 0, _ => []
  | _ + 1, [] => []
  | fuel + 1, c :: t =>
    match m (c :: t) with
    | some (s, rest) => s :: findAllWith m fuel rest
    | none => findAllWith m fuel t

/-- Try alternatives in order, keeping the first success (regex alternation). -/
def firstSome {α β : Type} (f : α → Option β) : List α → Option β
  | [] => none
  | x :: t => match f x with | some y => some y | none => firstSome f t

/-! ### `extract_dates`

Patterns 1–3 of the source: two-digit pairs and a four-digit year joined by
a separator class containing `'/'` and `'-'`; the two-digit-year form
carries a negative lookahead `(?!\d)`. -/

def isSepC (c : Char) : Bool := c = '/' || c = '-'

def matchDate1 : List Char → Option (List Char × List Char)
  | a :: b :: s1 :: c :: d :: s2 :: e :: f :: g :: h :: rest =>
    if isDigitC a && isDigitC b && isSepC s1 && isDigitC c && isDigitC d &&
        isSepC s2 && isDigitC e && isDigitC f && isDigitC g && isDigitC h then
      some ([a, b, s1, c, d, s2, e, f, g, h], rest)
    else none
  | _ => none

def matchDate2 : List Char → Option (List Char × List Char)
  | a :: b :: s1 :: c :: d :: s2 :: e :: f :: rest =>
    if isDigitC a && isDigitC b && isSepC s1 && isDigitC c && isDigitC d &&
        isSepC s2 && isDigitC e && isDigitC f &&
        (match rest with | [] => true | x :: _ => !isDigitC x) then
      some ([a, b, s1, c, d, s2, e, f], rest)
    else none
  | _ => none

def matchDate3 : List Char → Option (List Char × List Char)
  | a :: b :: c :: d :: s1 :: e :: f :: s2 :: g :: h :: rest =>
    if isDigitC a && isDigitC b && isDigitC c && isDigitC d && isSepC s1 &&
        isDigitC e && isDigitC f && isSepC s2 && isDigitC g && isDigitC h then
      some ([a, b, c, d, s1, e, f, s2, g, h], rest)
    else none
  | _ => none

/-- `dict.fromkeys` de-duplication: keep the first occurrence of each string. -/
def firstKeepDedup (seen : List (List Char)) : List (List Char) → List (List Char)
  | [] => []
  | x :: t =>
    if seen.contains x then firstKeepDedup seen t
    else x :: firstKeepDedup (x :: seen) t

def dateMatches (cs : List Char) : List (List Char) :=
  findAllWith matchDate1 cs.length cs ++ findAllWith matchDate2 cs.length cs ++
    findAllWith matchDate3 cs.length cs

/-- `extract_dates` of `src/extraction.py`. -/
def extract_dates (text : String) : List String :=
  if text.data.isEmpty then []
  else (firstKeepDedup [] (dateMatches text.data)).map String.mk

/-! ### `extract_amounts` — pattern `(?:RM|Rs\.?|\$|€)?\s*\d{1,3}(?:,\d{3})*[.,]\d{2}` -/

/-- The final `[.,]\d{2}` of the amount pattern. -/
def tailFracMatch : List Char → Option (List Char × List Char)
  | s :: a :: b :: rest =>
    if (s = '.' || s = ',') && isDigitC a && isDigitC b then
      some ([s, a, b], rest)
    else none
  | _ => none

/-- `(?:,\d{3})*[.,]\d{2}` with the star expanded greedily and backtracked
one iteration at a time, as the regex engine does. -/
def groupsThenFrac : ℕ → List Char → Option (List Char × List Char)
  | 0, cs => tailFracMatch cs
  | fuel + 1, cs =>
    match cs with
    | ',' :: a :: b :: c :: rest =>
      if isDigitC a && isDigitC b && isDigitC c then
        match groupsThenFrac fuel rest with
        | some (m, r) => some (',' :: a :: b :: c :: m, r)
        | none => tailFracMatch cs
      else tailFracMatch cs
    | _ => tailFracMatch cs

/-- Greedy `\d{1,3}`: candidate splits in backtracking order (3, 2, 1 digits). -/
def digitChoices (cs : List Char) : List (List Char × List Char) :=
  [3, 2, 1].filterMap fun n =>
    let p := cs.take n
    if p.length = n && p.all isDigitC then some (p, cs.drop n) else none

/-- Alternatives of the optional currency marker, in the regex's order,
ending with the empty (marker absent) choice. -/
def amountMarkers : List (List Char) :=
  [['R', 'M'], ['R', 's', '.'], ['R', 's'], ['$'], ['€'], []]

/-- One attempt of the amount pattern at the head of `cs`. -/
def matchAmountAt (cs : List Char) : Option (List Char × List Char) :=
  firstSome
    (fun pre =>
      if startsWithSeq pre cs then
        let afterPre := cs.drop pre.length
        let ws := afterPre.takeWhile isSpaceC
        let afterWs := afterPre.dropWhile isSpaceC
        firstSome
          (fun pr =>
            match groupsThenFrac pr.2.length pr.2 with
            | some (m, r2) => some (pre ++ ws ++ pr.1 ++ m, r2)
            | none => none)
          (digitChoices afterWs)
      else none)
    amountMarkers

/-- All tokens matched by the amount pattern, in order of appearance. -/
def amountTokens (text : String) : List (List Char) :=
  findAllWith matchAmountAt text.data.length text.data

/-- `re.sub(r'[^\d.,]', '', ...)` followed by `.replace(',', '.')`. -/
def cleanAmount (tok : List Char) : List Char :=
  (tok.filter fun c => isDigitC c || c = '.' || c = ',').map
    fun c => if c = ',' then '.' else c

/-- `extract_amounts` of `src/extraction.py`: parse each cleaned match,
silently skipping residues on which `float` raises. -/
def extract_amounts (text : String) : List Frac :=
  if text.data.isEmpty then []
  else
    (amountTokens text).foldl
      (fun acc tok =>
        match pyFloatParse (cleanAmount tok) with
        | some v => acc ++ [v]
        | none => acc)
      []

/-! ### `extract_total` — `re.search` of
`(?:TOTAL|GRAND\s*TOTAL|AMOUNT\s*DUE|BALANCE)\s*:?\s*(\d+[.,]\d{2})`, case-insensitive -/

/-- Case-insensitive literal prefix; returns the rest on success. -/
def dropCI (kw : List Char) (cs : List Char) : Option (List Char) :=
  if startsWithSeq kw (lowerS (cs.take kw.length)) then some (cs.drop kw.length)
  else none

/-- `KW1\s*KW2` (used for `GRAND\s*TOTAL` and `AMOUNT\s*DUE`). -/
def dropCIpair (kw1 kw2 : List Char) (cs : List Char) : Option (List Char) :=
  match dropCI kw1 cs with
  | none => none
  | some r => dropCI kw2 (r.dropWhile isSpaceC)

/-- The keyword alternation of the total pattern, tried in the regex's order. -/
def totalKwAt (cs : List Char) : Option (List Char) :=
  match dropCI ['t', 'o', 't', 'a', 'l'] cs with
  | some r => some r
  | none =>
    match dropCIpair ['g', 'r', 'a', 'n', 'd'] ['t', 'o', 't', 'a', 'l'] cs with
    | some r => some r
    | none =>
      match dropCIpair ['a', 'm', 'o', 'u', 'n', 't'] ['d', 'u', 'e'] cs with
      | some r => some r
      | none => dropCI ['b', 'a', 'l', 'a', 'n', 'c', 'e'] cs

/-- `\s*:?\s*(\d+[.,]\d{2})` after a matched keyword; yields the float of the
captured group with `','` normalised to `'.'`. -/
def totalNumberAfter (cs : List Char) : Option Frac :=
  let r1 := cs.dropWhile isSpaceC
  let r2 := match r1 with | ':' :: t => t.dropWhile isSpaceC | _ => r1
  let ds := r2.takeWhile isDigitC
  if ds.isEmpty then none
  else
    match r2.drop ds.length with
    | s :: a :: b :: _ =>
      if (s = '.' || s = ',') && isDigitC a && isDigitC b then
        some (f64ofDecimal (natOfDigits ds) (natOfDigits [a, b]) 2)
      else none
    | _ => none

/-- One attempt of the whole total pattern at the head of `cs`. -/
def matchTotalAt (cs : List Char) : Option Frac :=
  match totalKwAt cs with
  | none => none
  | some r => totalNumberAfter r

/-- `re.search`: first position, scanned left to right, where the pattern matches. -/
def searchTotalQ : List Char → Option Frac
  | [] => none
  | c :: t =>
    match matchTotalAt (c :: t) with
    | some v => some v
    | none => searchTotalQ t

/-- `extract_total` of `src/extraction.py`. -/
def extract_total (text : String) : Option Frac :=
  if text.data.isEmpty then none else searchTotalQ text.data

/-! ### `extract_invoice_number`

First 15 lines; a line qualifies when its lowering contains one of the
substrings `nvoice`, `receipt`, `bill`, `no`; candidates are matches of
`[A-Z]{2,}[A-Z0-9\-]{3,}` (case-insensitive): a run of at least two letters
followed by letters/digits/hyphens, five or more characters in all.  The
first candidate with a digit and a letter is returned uppercased. -/

def isInvTailC (c : Char) : Bool := isAlphaC c || isDigitC c || c = '-'

/-- One attempt of the invoice-number pattern at the head of `cs`.  The two
greedy pieces together consume the letter run and then the maximal
letters/digits/hyphens run; the match succeeds iff the letter run has length
at least 2 and the whole run length at least 5. -/
def invTokenAt (cs : List Char) : Option (List Char × List Char) :=
  let letters := cs.takeWhile isAlphaC
  if 2 ≤ letters.length then
    let rest := cs.drop letters.length
    let tail2 := rest.takeWhile isInvTailC
    if 5 ≤ letters.length + tail2.length then
      some (letters ++ tail2, rest.drop tail2.length)
    else none
  else none

def invKeywords : List (List Char) :=
  [['n', 'v', 'o', 'i', 'c', 'e'], ['r', 'e', 'c', 'e', 'i', 'p', 't'],
   ['b', 'i', 'l', 'l'], ['n', 'o']]

/-- Candidate filter of the source: length ≥ 5, has a digit, has a letter. -/
def invQualifies (tok : List Char) : Bool :=
  5 ≤ tok.length && tok.any isDigitC && tok.any isAlphaC

def invScanLines : List (List Char) → Option (List Char)
  | [] => none
  | l :: t =>
    if invKeywords.any (fun k => hasSub k (lowerS l)) then
      match (findAllWith invTokenAt l.length l).filter invQualifies with
      | tok :: _ => some (tok.map upperC)
      | [] => invScanLines t
    else invScanLines t

/-- `extract_invoice_number` of `src/extraction.py`. -/
def extract_invoice_number (text : String) : Option String :=
  if text.data.isEmpty then none
  else (invScanLines ((splitNl text.data).take 15)).map String.mk

/-! ### `extract_bill_to` -/

structure BillTo where
  name : String
  email : Option String
deriving DecidableEq

/-- Python `\w` (ASCII fragment). -/
def isWordC (c : Char) : Bool := isAlphaC c || isDigitC c || c = '_'

/-- The class `[\w.-]` of the email pattern. -/
def isEmailCls (c : Char) : Bool := isWordC c || c = '.' || c = '-'

/-- Backtracking of `[\w.-]+\.\w+` against the maximal class run after the
`'@'`: the literal dot is matched at the rightmost position of the run that
is at index 1 or later (the `[\w.-]+` before it must consume at least one
character) and is followed by a word character. -/
def emailDotSplit (run : List Char) (j : ℕ) : Option (List Char) :=
  match j with
  | 0 => none
  | 1 => none
  | j + 1 =>
    match run.drop j with
    | '.' :: c :: _ =>
      if isWordC c then
        some (run.take j ++ '.' :: (run.drop (j + 1)).takeWhile isWordC)
      else emailDotSplit run j
    | _ => emailDotSplit run j

/-- One attempt of `[\w.-]+@[\w.-]+\.\w+` at the head of `cs`; returns the
matched e-mail only (the source uses `match.group(0)`). -/
def emailAt (cs : List Char) : Option (List Char) :=
  let r1 := cs.takeWhile isEmailCls
  if r1.isEmpty then none
  else
    match cs.drop r1.length with
    | '@' :: t =>
      let run := t.takeWhile isEmailCls
      match emailDotSplit run (run.length - 1) with
      | some r2 => some (r1 ++ '@' :: r2)
      | none => none
    | _ => none

/-- `re.search` of the email pattern: leftmost match. -/
def searchEmail : List Char → Option (List Char)
  | [] => none
  | c :: t =>
    match emailAt (c :: t) with
    | some m => some m
    | none => searchEmail t

def billHeadings : List (List Char) :=
  [['b', 'i', 'l', 'l', ' ', 't', 'o'], ['b', 'i', 'l', 'l', 'e', 'd', ' ', 't', 'o'],
   ['b', 'i', 'l', 'l', 'i', 'n', 'g', ' ', 'n', 'a', 'm', 'e'],
   ['c', 'u', 's', 't', 'o', 'm', 'e', 'r']]

/-- `re.split(r'[:\-]', line, maxsplit=1)`: everything after the first `':'`
or `'-'`, or `none` when the line has neither. -/
def afterFirstSep : List Char → Option (List Char)
  | [] => none
  | c :: t => if c = ':' || c = '-' then some t else afterFirstSep t

/-- Remove every occurrence of `pat` (Python `str.replace(pat, '')`),
scanning left to right. -/
def removeAllSub (pat : List Char) : ℕ → List Char → List Char
  | 0, cs => cs
  | _ + 1, [] => []
  | fuel + 1, c :: t =>
    if startsWithSeq pat (c :: t) && !pat.isEmpty then
      removeAllSub pat fuel ((c :: t).drop pat.length)
    else c :: removeAllSub pat fuel t

/-- Find the heading line; yield the billed-to candidate text of the source
(`after the separator` or `the whole next line`), or `none`. -/
def billCandidate : List (List Char) → Option (List Char)
  | [] => none
  | l :: t =>
    if billHeadings.any (fun h => hasSub h (lowerS l)) then
      match afterFirstSep l with
      | some rest => some (stripWs rest)
      | none => match t with | next :: _ => some (stripWs next) | [] => none
    else billCandidate t

/-- `extract_bill_to` of `src/extraction.py`. -/
def extract_bill_to (text : String) : Option BillTo :=
  if text.data.isEmpty then none
  else
    let lines := ((splitLinesPy text.data).map stripWs).filter (fun l => !l.isEmpty)
    match billCandidate lines with
    | none => none
    | some cand =>
      if cand.isEmpty then none
      else
        let email := searchEmail cand
        let name :=
          match email with
          | some e => stripWs (removeAllSub e cand.length cand)
          | none => cand
        if 2 < name.length then
          some ⟨String.mk name, email.map String.mk⟩
        else none

/-! ### `extract_line_items` -/

structure LineItem where
  description : String
  quantity : ℕ
  unit_price : Frac
  total : Frac
deriving DecidableEq

def startKws : List (List Char) :=
  [['d', 'e', 's', 'c', 'r', 'i', 'p', 't', 'i', 'o', 'n'], ['i', 't', 'e', 'm'],
   ['q', 't', 'y'], ['p', 'r', 'i', 'c', 'e'], ['a', 'm', 'o', 'u', 'n', 't']]

def endKws : List (List Char) :=
  [['t', 'o', 't', 'a', 'l'], ['s', 'u', 'b', 't', 'o', 't', 'a', 'l'],
   ['t', 'a', 'x'], ['g', 's', 't']]

def hasStartKw (l : List Char) : Bool := startKws.any fun k => hasSub k (lowerS l)

def hasEndKw (l : List Char) : Bool := endKws.any fun k => hasSub k (lowerS l)

/-- The boundary loop of the source: `start_index` is set once, after which
the same and following lines are checked for an end keyword (`end_index`
defaults to the number of lines). -/
def boundsGo (len : ℕ) : List (List Char) → ℕ → Option ℕ → Option ℕ × ℕ
  | [], _, st => (st, len)
  | l :: t, i, none =>
    if hasStartKw l then
      if hasEndKw l then (some (i + 1), i)
      else boundsGo len t (i + 1) (some (i + 1))
    else boundsGo len t (i + 1) none
  | l :: t, i, some s =>
    if hasEndKw l then (some s, i) else boundsGo len t (i + 1) (some s)

/-- `lines[start_index:end_index]` of the source (empty when no start
keyword is found, in which case the source returns early). -/
def itemRegion (lines : List (List Char)) : List (List Char) :=
  match boundsGo lines.length lines 0 none with
  | (none, _) => []
  | (some s, e) => (lines.drop s).take (e - s)

/-- `re.sub(r'[^\d\.\s]', '', line)`. -/
def cleanLineDN (line : List Char) : List Char :=
  line.filter fun c => isDigitC c || c = '.' || isSpaceC c

/-- One attempt of `\d+(?:\.\d+)?` at the head of `cs`. -/
def numTokenAt (cs : List Char) : Option (List Char × List Char) :=
  match cs with
  | c :: _ =>
    if isDigitC c then
      let d1 := cs.takeWhile isDigitC
      let r := cs.drop d1.length
      match r with
      | '.' :: r2 =>
        let d2 := r2.takeWhile isDigitC
        if d2.isEmpty then some (d1, r)
        else some (d1 ++ '.' :: d2, r2.drop d2.length)
      | _ => some (d1, r)
    else none
  | [] => none

/-- The numeric tokens of a (cleaned) line, left to right. -/
def numTokens (cs : List Char) : List (List Char) :=
  findAllWith numTokenAt cs.length cs

/-- `re.match(r'^\s*(\d+)\s*(?:x)?', line)`: the leading digit run after
optional whitespace, else a default quantity of 1. -/
def qtyOf (line : List Char) : ℕ :=
  let ds := (line.dropWhile isSpaceC).takeWhile isDigitC
  if ds.isEmpty then 1 else natOfDigits ds

/-- `re.sub(r'[\d\.\s]+', '', line).strip()`. -/
def descFragment (line : List Char) : List Char :=
  stripWs (line.filter fun c => !(isDigitC c || c = '.' || isSpaceC c))

/-- The description buffer after the current line's fragment is appended
(space-joined when both are non-empty). -/
def bufAfter (buf line : List Char) : List Char :=
  let frag := descFragment line
  if frag.isEmpty then buf
  else if buf.isEmpty then frag
  else buf ++ ' ' :: frag

/-- The loop body of `extract_line_items`: returns the next buffer, an
emitted item (if any) and whether the `ValueError` discard branch ran. -/
def liStep (buf line : List Char) : List Char × Option LineItem × Bool :=
  let amounts := numTokens (cleanLineDN line)
  let buf1 := bufAfter buf line
  match amounts.getLast? with
  | none => (buf1, none, false)
  | some lastTok =>
    if buf1.isEmpty then (buf1, none, false)
    else
      match pyFloatParse lastTok with
      | none => ([], none, true)
      | some tot =>
        match
          (if 1 < amounts.length then pyFloatParse (amounts.dropLast.getLast?.getD [])
           else some tot) with
        | none => ([], none, true)
        | some up => ([], some ⟨String.mk (stripWs buf1), qtyOf line, up, tot⟩, false)

/-- Fold of `liStep` over the bounded region. -/
def liFold : List Char → List (List Char) → List LineItem × Bool
  | _, [] => ([], false)
  | buf, l :: ls =>
    let s := liStep buf l
    let rest := liFold s.1 ls
    (match s.2.1 with | some it => it :: rest.1 | none => rest.1, s.2.2 || rest.2)

/-- `extract_line_items` of `src/extraction.py`. -/
def extract_line_items (text : String) : List LineItem :=
  (liFold [] (itemRegion (splitNl text.data))).1

/-- `true` when some line of the region took the `except ValueError` branch
that discards the in-progress item. -/
def liDiscards (text : String) : Bool :=
  (liFold [] (itemRegion (splitNl text.data))).2

/-! ### `structure_output` -/

structure InvoiceRecord where
  receipt_number : Option String
  date : Option String
  bill_to : Option BillTo
  items : List LineItem
  total_amount : Option Frac
  raw_text : String
  extraction_confidence : ℤ
  validation_passed : Bool
deriving DecidableEq

/-- `sum(item.get('total', 0) for item in items)`: left fold of float
addition starting from the integer 0. -/
def sumTotalsF64 (items : List LineItem) : Frac :=
  items.foldl (fun a it => f64add a it.total) ⟨0, 1⟩

/-- The count of extracted fields of the source's confidence computation. -/
def fieldCount (inv date : Option String) (bill : Option BillTo)
    (total : Option Frac) (items : List LineItem) : ℕ :=
  (if inv.isSome then 1 else 0) + (if date.isSome then 1 else 0) +
    (if bill.isSome then 1 else 0) + (if total.isSome then 1 else 0) +
    (if items.isEmpty then 0 else 1)

/-- `int((extracted_fields / (len(fields_to_check) + 1)) * 100)` in Python
float arithmetic. -/
def confidenceOf (k : ℕ) : ℤ :=
  pyInt (f64mul (f64div (Frac.ofInt (k : ℤ)) ⟨5, 1⟩) ⟨100, 1⟩)

/-- The double nearest to the literal `0.01` of the source. -/
def epsF64 : Frac := f64ofDecimal 0 1 2

/-- The validation of the source: false unless a total is present and the
float `abs(total - items_total)` compares below the float literal `0.01`. -/
def validationOf (total : Option Frac) (items : List LineItem) : Bool :=
  match total with
  | none => false
  | some t => Frac.blt (f64abs (f64sub t (sumTotalsF64 items))) epsF64

/-- `structure_output` of `src/extraction.py`. -/
def structure_output (text : String) : InvoiceRecord :=
  let date := (extract_dates text).head?
  let total := extract_total text
  let bill := extract_bill_to text
  let items := extract_line_items text
  let inv := extract_invoice_number text
  { receipt_number := inv
    date := date
    bill_to := bill
    items := items
    total_amount := total
    raw_text := text
    extraction_confidence := confidenceOf (fieldCount inv date bill total items)
    validation_passed := validationOf total items }

/-- `structure_output` on an optional (possibly `None`) text.  On `None`
the guarded extractors return their defaults, but `extract_line_items`
calls `text.split` on `None` and Python raises `AttributeError`; the raise
is modelled by `none`. -/
def structureOutputOpt : Option String → Option InvoiceRecord
  | none => none
  | some t => some (structure_output t)


/-! ### Specification-side definitions

Each definition below follows the wording of a claim (or of the amended
claim) rather than the source; the theorems compare them with the
definitions translated from the source. -/

/-- First index of a line satisfying `p`. -/
def firstIdxWhere (p : List Char → Bool) : List (List Char) → Option ℕ
  | [] => none
  | l :: t => if p l then some 0 else (firstIdxWhere p t).map (· + 1)

/-- Modelled from claim C2's words: the region consists of the lines
strictly after the first start-keyword line, up to (excluding) the first
line *at or after the start boundary* that contains an end keyword, or the
end of text. -/
def claimRegionSpec (lines : List (List Char)) : List (List Char) :=
  match firstIdxWhere hasStartKw lines with
  | none => []
  | some d =>
    let e :=
      match firstIdxWhere hasEndKw (lines.drop (d + 1)) with
      | some j => (d + 1) + j
      | none => lines.length
    (lines.drop (d + 1)).take (e - (d + 1))

/-- The amended region: as claim C2, except that the end boundary is sought
from the start-keyword line itself (so a line carrying both a start and an
end keyword yields an empty region), which is what the source loop does. -/
def amendedRegionSpec (lines : List (List Char)) : List (List Char) :=
  match firstIdxWhere hasStartKw lines with
  | none => []
  | some d =>
    let e :=
      match firstIdxWhere hasEndKw (lines.drop d) with
      | some j => d + j
      | none => lines.length
    (lines.drop (d + 1)).take (e - (d + 1))

/-- Modelled from claim C5's words: the space-joined description fragments
of the amount-free lines of the region. -/
def amountFreeJoin (region : List (List Char)) : List Char :=
  region.foldl
    (fun buf l => if (numTokens (cleanLineDN l)).isEmpty then bufAfter buf l else buf) []

/-- Modelled from claim C1's words: exact-arithmetic validation of the
decimal values appearing in the text, with strict epsilon `0.01`. -/
def claimValidationSpec (t : ℚ) (itemTotals : List ℚ) : Prop :=
  |t - itemTotals.sum| < 1/100

/-- Keep the first occurrence of each string, removing every later
duplicate (the claims' description of the date de-duplication). -/
def keepFirsts : List (List Char) → List (List Char)
  | [] => []
  | x :: t => x :: keepFirsts (t.filter fun y => !(y == x))
termination_by l => l.length
decreasing_by
  simp only [List.length_cons]
  exact Nat.lt_succ_of_le (List.length_filter_le _ _)

/-- The field count of claim C4, read off the returned record. -/
def presentK (r : InvoiceRecord) : ℕ :=
  fieldCount r.receipt_number r.date r.bill_to r.total_amount r.items

/-- The two record-level texts of claim C1's validation example. -/
def c1TextA : String := "Item Qty Price\nWidget 10.00\nGadget 25.50\nTOTAL: 35.50"

def c1TextB : String := "Item Qty Price\nWidget 10.00\nGadget 25.50\nTOTAL: 35.51"

/-- The end index determined by an optional keyword hit at offset `i`. -/
def endIdxVal (i len : ℕ) : Option ℕ → ℕ
  | some j => i + j
  | none => len

/-! ## Theorems -/

theorem amounts_foldl_filterMap (l : List (List Char)) (acc : List Frac) :
    l.foldl
      (fun acc tok =>
        match pyFloatParse (cleanAmount tok) with
        | some v => acc ++ [v]
        | none => acc)
      acc = acc ++ l.filterMap (fun tok => pyFloatParse (cleanAmount tok)) := by
  induction l generalizing acc with
  | nil => simp
  | cons x t ih =>
    simp only [List.foldl_cons, List.filterMap_cons]
    cases h : pyFloatParse (cleanAmount x) with
    | none => simp [h, ih]
    | some v => simp [h, ih]

/-- C3 (corrected).  `extract_amounts` is the in-order `filterMap` of the
cleaned-and-parsed matched tokens; cleaning replaces every comma by a dot,
so the thousands-separated token `$1,234.56` cleans to `1.234.56`, fails to
parse, and contributes no value. -/
theorem c3_amounts_amended :
    (∀ text : String,
      extract_amounts text =
        (amountTokens text).filterMap (fun tok => pyFloatParse (cleanAmount tok))) ∧
    cleanAmount "$1,234.56".data = "1.234.56".data ∧
    pyFloatParse "1.234.56".data = none := by
  refine ⟨fun text => ?_, by decide, by decide⟩
  by_cases h : text.data.isEmpty
  · have h0 : text.data = [] := by simpa [List.isEmpty_iff] using h
    simp [extract_amounts, amountTokens, h, h0, findAllWith]
  · simp [extract_amounts, h, amounts_foldl_filterMap]

/-- C3 falsified as stated: the input `$1,234.56` is matched as one token
but `extract_amounts` returns the empty list, so no value `1234.56` is
contributed. -/
theorem c3_thousands_counterexample :
    amountTokens "$1,234.56" = ["$1,234.56".data] ∧
    extract_amounts "$1,234.56" = [] := by
  constructor <;> decide

/-- C8 falsified as stated: on a null (`None`) text `structure_output`
raises (`extract_line_items` calls `split` on `None`), modelled by `none`;
no record at all is returned. -/
theorem c8_null_counterexample :
    structureOutputOpt none = none ∧ ∀ r : InvoiceRecord, structureOutputOpt none ≠ some r := by
  exact ⟨rfl, fun r h => Option.noConfusion h⟩

/-- C8 (corrected).  On the empty text `structure_output` returns, without
raising, the all-absent record with empty items, confidence 0 and failing
validation; for every input the amounts sequence is exactly the in-order
successful parses of the matched tokens, so a matched token whose cleaned
residue fails to parse is handled without raising and contributes no
element — exercised at `Rs. 12.34`, whose residue `.12.34` fails. -/
theorem c8_empty_amended :
    structure_output "" =
      { receipt_number := none, date := none, bill_to := none, items := [],
        total_amount := none, raw_text := "", extraction_confidence := 0,
        validation_passed := false } ∧
    (∀ text : String,
      extract_amounts text =
        (amountTokens text).filterMap (fun tok => pyFloatParse (cleanAmount tok))) ∧
    amountTokens "Rs. 12.34" = ["Rs. 12.34".data] ∧
    cleanAmount "Rs. 12.34".data = ".12.34".data ∧
    extract_amounts "Rs. 12.34" = [] := by
  refine ⟨by decide, fun text => ?_, by decide, by decide, by decide⟩
  by_cases h : text.data.isEmpty
  · have h0 : text.data = [] := by simpa [List.isEmpty_iff] using h
    simp [extract_amounts, amountTokens, h, h0, findAllWith]
  · simp [extract_amounts, h, amounts_foldl_filterMap]

/-- C1 falsified as stated: for the text whose items total `10.00` and
`25.50` and whose declared total is `35.51`, the code sets
`validation_passed = true` — the double nearest `35.51` differs from `35.5`
by slightly less than `0.01` — while the claim's exact-arithmetic reading
demands `false` (the exact difference is not below the epsilon). -/
theorem c1_boundary_counterexample :
    (structure_output c1TextB).validation_passed = true ∧
    (structure_output c1TextB).items.map LineItem.total = [⟨10, 1⟩, ⟨51, 2⟩] ∧
    (structure_output c1TextB).total_amount = some ⟨4997588211497697, 140737488355328⟩ ∧
    ¬ claimValidationSpec ((3551 : ℚ) / 100) [10, 51/2] := by
  refine ⟨by decide, by decide, by decide, ?_⟩
  simp only [claimValidationSpec, List.sum_cons, List.sum_nil]
  rw [abs_sub_lt_iff]
  norm_num

/-- C1 (amended).  `validation_passed` is true iff a total is present and
the float `abs(total - sum(items[].total))` compares strictly below the
float literal `0.01` — all in IEEE binary64 arithmetic.  At the claimed
example both `35.50` and `35.51` yield `true`. -/
theorem c1_validation_amended :
    (∀ text : String,
      (structure_output text).validation_passed = true ↔
        ∃ t : Frac, (structure_output text).total_amount = some t ∧
          Frac.blt (f64abs (f64sub t (sumTotalsF64 (structure_output text).items))) epsF64 =
            true) ∧
    (structure_output c1TextA).validation_passed = true ∧
    (structure_output c1TextB).validation_passed = true := by
  refine ⟨fun text => ?_, by decide, by decide⟩
  simp only [structure_output]
  cases h : extract_total text with
  | none => simp [validationOf, h]
  | some t => simp [validationOf, h]

theorem fieldCount_le_five (inv date : Option String) (bill : Option BillTo)
    (total : Option Frac) (items : List LineItem) :
    fieldCount inv date bill total items ≤ 5 := by
  unfold fieldCount
  split_ifs <;> omega

theorem confidenceOf_eq_twenty_mul (k : ℕ) (hk : k ≤ 5) : confidenceOf k = 20 * k := by
  interval_cases k <;> decide

/-- C4 (confirmed).  The confidence is the integer `20 * k` where `k`
counts the present fields among receipt number, date, bill-to and total,
plus one for a non-empty item list; since `100 * k / 5 = 20 * k` exactly,
this is both `round(100 * k / 5)` and the truncation the source computes,
and it always lies in `[0, 100]`. -/
theorem c4_confidence_confirmed (text : String) :
    (structure_output text).extraction_confidence =
      20 * (presentK (structure_output text) : ℤ) ∧
    0 ≤ (structure_output text).extraction_confidence ∧
    (structure_output text).extraction_confidence ≤ 100 := by
  have hk :
      presentK (structure_output text) =
        fieldCount (extract_invoice_number text) (extract_dates text).head?
          (extract_bill_to text) (extract_total text) (extract_line_items text) := rfl
  have hc :
      (structure_output text).extraction_confidence =
        confidenceOf (presentK (structure_output text)) := rfl
  have hle : presentK (structure_output text) ≤ 5 := by
    rw [hk]; exact fieldCount_le_five _ _ _ _ _
  have := confidenceOf_eq_twenty_mul _ hle
  refine ⟨by rw [hc, this], ?_, ?_⟩
  · rw [hc, this]; omega
  · rw [hc, this]; omega

theorem firstIdxWhere_cons (p : List Char → Bool) (l : List Char) (t : List (List Char)) :
    firstIdxWhere p (l :: t) =
      if p l then some 0 else (firstIdxWhere p t).map (· + 1) := rfl

theorem firstIdxWhere_drop_cons {p : List Char → Bool} :
    ∀ {t : List (List Char)} {d : ℕ}, firstIdxWhere p t = some d →
      ∃ l u, t.drop d = l :: u ∧ p l = true := by
  intro t
  induction t with
  | nil => intro d h; exact absurd h (by simp [firstIdxWhere])
  | cons l t ih =>
    intro d h
    rw [firstIdxWhere_cons] at h
    by_cases hp : p l
    · rw [if_pos hp] at h
      obtain rfl : 0 = d := Option.some.inj h
      exact ⟨l, t, rfl, hp⟩
    · rw [if_neg hp, Option.map_eq_some'] at h
      obtain ⟨d', hd', rfl⟩ := h
      obtain ⟨l', u, hdrop, hp'⟩ := ih hd'
      exact ⟨l', u, by simpa using hdrop, hp'⟩

theorem boundsGo_some_eq :
    ∀ (u : List (List Char)) (len i s : ℕ),
      boundsGo len u i (some s) =
        (some s, endIdxVal i len (firstIdxWhere hasEndKw u)) := by
  intro u
  induction u with
  | nil => intro len i s; rfl
  | cons l t ih =>
    intro len i s
    by_cases he : hasEndKw l
    · simp [boundsGo, he, firstIdxWhere_cons, endIdxVal]
    · rw [show boundsGo len (l :: t) i (some s) = boundsGo len t (i + 1) (some s) by
        simp [boundsGo, he]]
      rw [ih, firstIdxWhere_cons, if_neg he]
      cases hj : firstIdxWhere hasEndKw t with
      | none => simp [endIdxVal]
      | some j =>
        simp only [Option.map_some', endIdxVal]
        exact Prod.ext rfl (by omega)

theorem boundsGo_none_eq :
    ∀ (t : List (List Char)) (len i : ℕ),
      boundsGo len t i none =
        match firstIdxWhere hasStartKw t with
        | none => (none, len)
        | some d =>
          if hasEndKw (t.drop d).headI then (some (i + d + 1), i + d)
          else
            (some (i + d + 1),
              endIdxVal (i + d + 1) len (firstIdxWhere hasEndKw (t.drop (d + 1)))) := by
  intro t
  induction t with
  | nil => intro len i; rfl
  | cons l t ih =>
    intro len i
    by_cases hs : hasStartKw l
    · rw [firstIdxWhere_cons, if_pos hs]
      by_cases he : hasEndKw l
      · simp [boundsGo, hs, he]
      · rw [show boundsGo len (l :: t) i none = boundsGo len t (i + 1) (some (i + 1)) by
          simp [boundsGo, hs, he]]
        rw [boundsGo_some_eq]
        simp [he]
    · rw [show boundsGo len (l :: t) i none = boundsGo len t (i + 1) none by
        simp [boundsGo, hs]]
      rw [ih, firstIdxWhere_cons, if_neg hs]
      cases hd : firstIdxWhere hasStartKw t with
      | none => simp
      | some d =>
        simp only [Option.map_some', List.drop_succ_cons]
        by_cases he : hasEndKw (t.drop d).headI
        · rw [if_pos he, if_pos he]
          exact Prod.ext (by simp; omega) (by simp; omega)
        · rw [if_neg he, if_neg he]
          refine Prod.ext (by simp; omega) ?_
          show endIdxVal (i + 1 + d + 1) len _ = endIdxVal (i + (d + 1) + 1) len _
          rw [show i + 1 + d + 1 = i + (d + 1) + 1 by omega]

/-- C2 (amended).  The region the source slices out is the one described by
the claim with a single change: the end keyword is sought from the
start-keyword line itself, not only from the start boundary. -/
theorem c2_region_amended (lines : List (List Char)) :
    itemRegion lines = amendedRegionSpec lines := by
  unfold itemRegion amendedRegionSpec
  rw [boundsGo_none_eq]
  cases hd : firstIdxWhere hasStartKw lines with
  | none => rfl
  | some d =>
    obtain ⟨l, u, hdrop, hp⟩ := firstIdxWhere_drop_cons hd
    have hu : lines.drop (d + 1) = u := by
      have : lines.drop (d + 1) = (lines.drop d).drop 1 := by
        rw [List.drop_drop]
      rw [this, hdrop]; rfl
    cases he : hasEndKw l with
    | true =>
      have hh : hasEndKw (lines.drop d).headI = true := by rw [hdrop]; simpa using he
      have hfe : firstIdxWhere hasEndKw (lines.drop d) = some 0 := by
        rw [hdrop, firstIdxWhere_cons, he]; rfl
      simp only [hh, if_true, hfe]
      simp [Nat.sub_eq_zero_of_le]
    | false =>
      have hh : hasEndKw (lines.drop d).headI = false := by rw [hdrop]; simpa using he
      have hfe : firstIdxWhere hasEndKw (lines.drop d) =
          (firstIdxWhere hasEndKw u).map (· + 1) := by
        rw [hdrop, firstIdxWhere_cons, he]; rfl
      simp only [hh, Bool.false_eq_true, if_false, hfe, hu]
      cases hj : firstIdxWhere hasEndKw u with
      | none => simp [endIdxVal, hu]
      | some j =>
        simp only [Option.map_some', endIdxVal, Nat.zero_add]
        rw [hu, show d + 1 + j - (d + 1) = d + (j + 1) - (d + 1) by omega]

/-- C2 falsified as stated: on `"Price Total\nWidget 5.00"` the start line
itself carries the end keyword `total`, so the source's region is empty
(and no items are extracted), while the claim's region — whose end boundary
is only sought from the start boundary onwards — contains the item line. -/
theorem c2_region_counterexample :
    itemRegion (splitNl "Price Total\nWidget 5.00".data) = [] ∧
    claimRegionSpec (splitNl "Price Total\nWidget 5.00".data) = ["Widget 5.00".data] ∧
    extract_line_items "Price Total\nWidget 5.00" = [] ∧
    ([] : List (List Char)) ≠ ["Widget 5.00".data] := by
  refine ⟨by decide, by decide, by decide, by decide⟩

theorem boundsGo_none_of_noStart :
    ∀ (t : List (List Char)), (∀ l ∈ t, hasStartKw l = false) →
      ∀ (len i : ℕ), boundsGo len t i none = (none, len) := by
  intro t
  induction t with
  | nil => intro _ len i; rfl
  | cons l u ih =>
    intro h len i
    have hl : hasStartKw l = false := h l (by simp)
    simp only [boundsGo, hl, Bool.false_eq_true, if_false]
    exact ih (fun x hx => h x (by simp [hx])) len (i + 1)

/-- C6 (confirmed).  When no line contains a start keyword the item region
is never entered and `extract_line_items` returns the empty list. -/
theorem c6_no_start_confirmed (text : String)
    (h : ∀ l ∈ splitNl text.data, hasStartKw l = false) :
    extract_line_items text = [] := by
  unfold extract_line_items itemRegion
  rw [boundsGo_none_of_noStart _ h]
  rfl

/-- Witness for C6 at the claim's example text: the two lines
`"Widget A"` and `"2 x 5.00 10.00"` contain no start keyword, and no items
are extracted despite the amounts. -/
theorem c6_no_start_witness :
    (∀ l ∈ splitNl "Widget A\n2 x 5.00 10.00".data, hasStartKw l = false) ∧
    extract_line_items "Widget A\n2 x 5.00 10.00" = [] := by
  refine ⟨by decide, c6_no_start_confirmed _ (by decide)⟩

theorem splitOnDot_no_dot :
    ∀ (l : List Char), (∀ c ∈ l, ¬c = '.') → splitOnDot l = [l] := by
  intro l
  induction l with
  | nil => intro _; rfl
  | cons c t ih =>
    intro h
    have hc : ¬c = '.' := h c (by simp)
    simp only [splitOnDot, hc, if_false]
    rw [ih fun x hx => h x (by simp [hx])]

theorem splitOnDot_append (a b : List Char) (ha : ∀ c ∈ a, ¬c = '.') :
    splitOnDot (a ++ '.' :: b) = a :: splitOnDot b := by
  induction a with
  | nil => simp [splitOnDot]
  | cons c t ih =>
    have hc : ¬c = '.' := ha c (by simp)
    simp only [List.cons_append, splitOnDot, hc, if_false, List.append_eq]
    rw [ih fun x hx => ha x (by simp [hx])]

theorem digit_ne_dot {c : Char} (h : isDigitC c = true) : ¬c = '.' := by
  intro hc
  subst hc
  exact absurd h (by decide)

theorem pyFloatParse_digits (l : List Char) (hne : l ≠ [])
    (hall : ∀ c ∈ l, isDigitC c = true) : (pyFloatParse l).isSome = true := by
  unfold pyFloatParse
  rw [if_pos (by simp only [List.all_eq_true]; intro c hc; simp [hall c hc])]
  rw [splitOnDot_no_dot l fun c hc => digit_ne_dot (hall c hc)]
  simp [hne]

theorem pyFloatParse_decimal (a b : List Char) (hne : a ≠ [])
    (ha : ∀ c ∈ a, isDigitC c = true) (hb : ∀ c ∈ b, isDigitC c = true) :
    (pyFloatParse (a ++ '.' :: b)).isSome = true := by
  unfold pyFloatParse
  rw [if_pos]
  · rw [splitOnDot_append a b fun c hc => digit_ne_dot (ha c hc)]
    rw [splitOnDot_no_dot b fun c hc => digit_ne_dot (hb c hc)]
    simp [hne]
  · simp only [List.all_eq_true]
    intro c hc
    rcases List.mem_append.1 hc with h1 | h2
    · simp [ha c h1]
    · rcases List.mem_cons.1 h2 with rfl | h3
      · simp
      · simp [hb c h3]

theorem numTokenAt_parse :
    ∀ {cs t r : List Char}, numTokenAt cs = some (t, r) →
      (pyFloatParse t).isSome = true := by
  intro cs t r h
  match cs with
  | [] => exact Option.noConfusion h
  | c :: cs' =>
    simp only [numTokenAt] at h
    by_cases hc : isDigitC c
    · rw [if_pos hc] at h
      have hd1ne : (c :: cs').takeWhile isDigitC ≠ [] := by
        simp [List.takeWhile_cons, hc]
      have hd1all : ∀ x ∈ (c :: cs').takeWhile isDigitC, isDigitC x = true :=
        fun x hx => List.mem_takeWhile_imp hx
      split at h
      · split at h
        · rw [Option.some.injEq, Prod.mk.injEq] at h
          obtain ⟨rfl, rfl⟩ := h
          exact pyFloatParse_digits _ hd1ne hd1all
        · rw [Option.some.injEq, Prod.mk.injEq] at h
          obtain ⟨rfl, rfl⟩ := h
          exact pyFloatParse_decimal _ _ hd1ne hd1all
            fun x hx => List.mem_takeWhile_imp hx
      · rw [Option.some.injEq, Prod.mk.injEq] at h
        obtain ⟨rfl, rfl⟩ := h
        exact pyFloatParse_digits _ hd1ne hd1all
    · rw [if_neg hc] at h
      exact Option.noConfusion h

theorem mem_findAllWith {m : List Char → Option (List Char × List Char)} :
    ∀ {fuel : ℕ} {cs t : List Char}, t ∈ findAllWith m fuel cs →
      ∃ cs' r, m cs' = some (t, r) := by
  intro fuel
  induction fuel with
  | zero => intro cs t h; simp [findAllWith] at h
  | succ f ih =>
    intro cs t h
    match cs with
    | [] => simp [findAllWith] at h
    | c :: cs' =>
      simp only [findAllWith] at h
      cases hm : m (c :: cs') with
      | none => rw [hm] at h; exact ih h
      | some pr =>
        obtain ⟨s, rest⟩ := pr
        rw [hm] at h
        rcases List.mem_cons.1 h with rfl | h2
        · exact ⟨c :: cs', rest, hm⟩
        · exact ih h2

theorem mem_of_getLastOpt {α : Type} :
    ∀ {l : List α} {a : α}, l.getLast? = some a → a ∈ l := by
  intro l
  induction l with
  | nil => intro a h; exact Option.noConfusion h
  | cons x t ih =>
    intro a h
    match t, h with
    | [], h => exact List.mem_singleton.2 (Option.some.inj h).symm
    | y :: u, h =>
      have : (y :: u).getLast? = some a := by
        rw [← h]; simp [List.getLast?_cons_cons]
      exact List.mem_cons_of_mem x (ih this)

theorem getLastOpt_ne_none {α : Type} :
    ∀ {l : List α}, l ≠ [] → ∃ a, l.getLast? = some a := by
  intro l
  induction l with
  | nil => intro h; exact absurd rfl h
  | cons x t ih =>
    intro _
    match t with
    | [] => exact ⟨x, rfl⟩
    | y :: u =>
      obtain ⟨a, ha⟩ := ih (by simp)
      exact ⟨a, by rw [← ha]; simp [List.getLast?_cons_cons]⟩

/-- Every token of the cleaned-line scanner parses: the tokens of
`numTokens` always have the shape digits or digits-dot-digits. -/
theorem numTokens_parse {cs t : List Char} (h : t ∈ numTokens cs) :
    (pyFloatParse t).isSome = true := by
  obtain ⟨cs', r, hm⟩ := mem_findAllWith h
  exact numTokenAt_parse hm

theorem liStep_flag (buf line : List Char) : (liStep buf line).2.2 = false := by
  simp only [liStep]
  cases hl : (numTokens (cleanLineDN line)).getLast? with
  | none => rfl
  | some lastTok =>
    have hmem : lastTok ∈ numTokens (cleanLineDN line) := mem_of_getLastOpt hl
    by_cases hb : (bufAfter buf line).isEmpty
    · simp [hb]
    · simp only [hb, Bool.false_eq_true, if_false]
      cases hp : pyFloatParse lastTok with
      | none => exact absurd (numTokens_parse hmem) (by simp [hp])
      | some tot =>
        by_cases hlen : 1 < (numTokens (cleanLineDN line)).length
        · have hne : (numTokens (cleanLineDN line)).dropLast ≠ [] := by
            intro hnil
            have := congrArg List.length hnil
            simp [List.length_dropLast] at this
            omega
          obtain ⟨tok2, htok2⟩ := getLastOpt_ne_none hne
          have hmem2 : tok2 ∈ numTokens (cleanLineDN line) :=
            List.Sublist.mem (mem_of_getLastOpt htok2) (List.dropLast_sublist _)
          cases hp2 : pyFloatParse tok2 with
          | none => exact absurd (numTokens_parse hmem2) (by simp [hp2])
          | some up => simp [hlen, htok2, hp2]
        · simp [hlen]

theorem liFold_flag : ∀ (region : List (List Char)) (buf : List Char),
    (liFold buf region).2 = false := by
  intro region
  induction region with
  | nil => intro buf; rfl
  | cons l ls ih =>
    intro buf
    simp only [liFold]
    rw [liStep_flag, ih]
    rfl

/-- C9 (confirmed).  Every token produced by the numeric-token pattern over
a cleaned line parses as a float, so the `ValueError` branch of
`extract_line_items` that would discard the in-progress item never runs. -/
theorem c9_nofail_confirmed :
    (∀ cs t : List Char, t ∈ numTokens cs → (pyFloatParse t).isSome = true) ∧
    (∀ text : String, liDiscards text = false) := by
  constructor
  · intro cs t ht
    exact numTokens_parse ht
  · intro text
    unfold liDiscards
    exact liFold_flag _ _

/-- Witness for C9: a concrete token of a concrete cleaned line parses. -/
theorem c9_nofail_witness :
    "5.00".data ∈ numTokens (cleanLineDN "Widget 5.00".data) ∧
    (pyFloatParse "5.00".data).isSome = true ∧
    liDiscards "Qty\n2 x 5.00 10.00" = false := by
  refine ⟨by decide,
    c9_nofail_confirmed.1 (cleanLineDN "Widget 5.00".data) "5.00".data (by decide),
    c9_nofail_confirmed.2 "Qty\n2 x 5.00 10.00"⟩

/-- C5 (amended).  Whenever a line of the region yields at least one
numeric token and the description buffer — after the current line's
fragment is appended, amount-bearing lines included — is non-empty, one
item is emitted: its total parses from the last token, its unit price from
the second-to-last token when two or more are present (else it equals the
total), its quantity is the leading digit run (defaulting to 1), and its
description is the accumulated buffer, which is then reset. -/
theorem c5_lineitem_amended (buf line : List Char)
    (hAmt : numTokens (cleanLineDN line) ≠ [])
    (hBuf : bufAfter buf line ≠ []) :
    ∃ it : LineItem,
      liStep buf line = ([], some it, false) ∧
      it.description = String.mk (stripWs (bufAfter buf line)) ∧
      it.quantity = qtyOf line ∧
      pyFloatParse ((numTokens (cleanLineDN line)).getLast?.getD []) = some it.total ∧
      (1 < (numTokens (cleanLineDN line)).length →
        pyFloatParse ((numTokens (cleanLineDN line)).dropLast.getLast?.getD []) =
          some it.unit_price) ∧
      ((numTokens (cleanLineDN line)).length = 1 → it.unit_price = it.total) := by
  obtain ⟨lastTok, hl⟩ := getLastOpt_ne_none hAmt
  have hmem : lastTok ∈ numTokens (cleanLineDN line) := mem_of_getLastOpt hl
  have hbe : (bufAfter buf line).isEmpty = false := by
    cases hbb : (bufAfter buf line).isEmpty
    · rfl
    · exact absurd (List.isEmpty_iff.1 hbb) hBuf
  cases hp : pyFloatParse lastTok with
  | none => exact absurd (numTokens_parse hmem) (by simp [hp])
  | some tot =>
    by_cases hlen : 1 < (numTokens (cleanLineDN line)).length
    · have hne : (numTokens (cleanLineDN line)).dropLast ≠ [] := by
        intro hnil
        have := congrArg List.length hnil
        simp [List.length_dropLast] at this
        omega
      obtain ⟨tok2, htok2⟩ := getLastOpt_ne_none hne
      have hmem2 : tok2 ∈ numTokens (cleanLineDN line) :=
        List.Sublist.mem (mem_of_getLastOpt htok2) (List.dropLast_sublist _)
      cases hp2 : pyFloatParse tok2 with
      | none => exact absurd (numTokens_parse hmem2) (by simp [hp2])
      | some up =>
        refine ⟨⟨String.mk (stripWs (bufAfter buf line)), qtyOf line, up, tot⟩,
          ?_, rfl, rfl, ?_, fun _ => ?_, fun h1 => absurd h1 (by omega)⟩
        · simp only [liStep]
          rw [hl]
          simp only [hbe, Bool.false_eq_true, if_false]
          rw [hp]
          simp only [hlen, if_true, htok2, Option.getD_some]
          rw [hp2]
        · rw [hl, Option.getD_some, hp]
        · rw [htok2, Option.getD_some, hp2]
    · refine ⟨⟨String.mk (stripWs (bufAfter buf line)), qtyOf line, tot, tot⟩,
        ?_, rfl, rfl, ?_, fun h1 => absurd h1 hlen, fun _ => rfl⟩
      · simp only [liStep]
        rw [hl]
        simp only [hbe, Bool.false_eq_true, if_false]
        rw [hp]
        simp only [hlen, if_false]
      · rw [hl, Option.getD_some, hp]

/-- Witness for C5 at a concrete line: `Widget 5.00` with an empty incoming
buffer emits one item. -/
theorem c5_lineitem_witness :
    numTokens (cleanLineDN "Widget 5.00".data) ≠ [] ∧
    bufAfter [] "Widget 5.00".data ≠ [] ∧
    ∃ it : LineItem,
      liStep [] "Widget 5.00".data = ([], some it, false) ∧
      it.description = String.mk (stripWs (bufAfter [] "Widget 5.00".data)) ∧
      it.quantity = qtyOf "Widget 5.00".data ∧
      pyFloatParse ((numTokens (cleanLineDN "Widget 5.00".data)).getLast?.getD []) =
        some it.total ∧
      (1 < (numTokens (cleanLineDN "Widget 5.00".data)).length →
        pyFloatParse
            ((numTokens (cleanLineDN "Widget 5.00".data)).dropLast.getLast?.getD []) =
          some it.unit_price) ∧
      ((numTokens (cleanLineDN "Widget 5.00".data)).length = 1 →
        it.unit_price = it.total) := by
  refine ⟨by decide, by decide, c5_lineitem_amended [] "Widget 5.00".data (by decide) (by decide)⟩

/-- C5 falsified as stated: in the region of `"Qty\nWidget 5.00"` the only
line carries an amount, so the claim's buffer — fragments of *amount-free*
lines — is empty (and, by the claim's own emission condition, nothing would
be emitted), yet the source emits an item whose description `Widget` is the
fragment of the amount-bearing line itself. -/
theorem c5_description_counterexample :
    extract_line_items "Qty\nWidget 5.00" = [⟨"Widget", 1, ⟨5, 1⟩, ⟨5, 1⟩⟩] ∧
    amountFreeJoin (itemRegion (splitNl "Qty\nWidget 5.00".data)) = [] ∧
    "Widget".data ≠ ([] : List Char) := by
  refine ⟨by decide, by decide, by decide⟩

theorem firstKeepDedup_eq_keepFirsts :
    ∀ (l seen : List (List Char)),
      firstKeepDedup seen l = keepFirsts (l.filter fun x => !(seen.contains x)) := by
  intro l
  induction l with
  | nil => intro seen; simp [firstKeepDedup, keepFirsts]
  | cons x t ih =>
    intro seen
    cases hx : seen.contains x with
    | true =>
      have hmem : x ∈ seen := by simpa using hx
      simp only [firstKeepDedup, hx, if_true]
      rw [ih seen]
      congr 1
      simp [List.filter_cons, hmem]
    | false =>
      have hmem : x ∉ seen := by simpa using hx
      simp only [firstKeepDedup, hx, Bool.false_eq_true, if_false]
      rw [List.filter_cons_of_pos (by simp [hmem]), keepFirsts, List.filter_filter]
      congr 1
      rw [ih (x :: seen)]
      congr 1
      apply List.filter_congr
      intro a _
      simp only [List.contains_cons, Bool.not_or, Bool.and_comm]

/-- C7 (confirmed).  `extract_dates` returns the pattern-1 matches, then
pattern-2, then pattern-3, de-duplicated keeping the first occurrence of
each exact string (`keepFirsts` removes every later duplicate from the
concatenation); on `"Date: 15/01/2019"` the first (and only) date is
`15/01/2019`. -/
theorem c7_dates_confirmed :
    (∀ text : String,
      extract_dates text = (keepFirsts (dateMatches text.data)).map String.mk) ∧
    extract_dates "Date: 15/01/2019" = ["15/01/2019"] := by
  refine ⟨fun text => ?_, by decide⟩
  by_cases h : text.data.isEmpty
  · have h0 : text.data = [] := List.isEmpty_iff.1 h
    simp [extract_dates, h, h0, dateMatches, findAllWith, keepFirsts]
  · simp only [extract_dates, h, Bool.false_eq_true, if_false]
    rw [firstKeepDedup_eq_keepFirsts]
    congr 2
    rw [show (fun x : List Char => !(([] : List (List Char)).contains x)) = fun _ => true
      from rfl]
    exact List.filter_true _

theorem searchTotal_append (a b : List Char)
    (h : ∀ s ∈ (a ++ b).tails, b.length < s.length → matchTotalAt s = none) :
    searchTotalQ (a ++ b) = searchTotalQ b := by
  induction a with
  | nil => simp
  | cons c a' ih =>
    have hm : matchTotalAt (c :: (a' ++ b)) = none := by
      refine h _ ((List.mem_tails _ _).2 (List.suffix_refl _)) ?_
      simp only [List.length_cons, List.length_append]
      omega
    rw [List.cons_append, show searchTotalQ (c :: (a' ++ b)) =
      match matchTotalAt (c :: (a' ++ b)) with
      | some v => some v
      | none => searchTotalQ (a' ++ b) from rfl, hm]
    exact ih fun s hs hls =>
      h s ((List.mem_tails _ _).2 (((List.mem_tails _ _).1 hs).trans (List.suffix_cons c _))) hls

/-- C10 (confirmed).  Keyword matching in `extract_total` is plain substring
search, so `TOTAL` matches inside `SUBTOTAL`: when a `SUBTOTAL: 50.00` line
precedes a `TOTAL: 193.00` line and the total pattern matches nowhere
earlier, the extracted total is `50.00`, not `193.00`. -/
theorem c10_subtotal_confirmed (pre mid post : List Char)
    (h : ∀ s ∈ (pre ++ "SUBTOTAL: 50.00\n".data ++ mid ++
          "TOTAL: 193.00".data ++ post).tails,
        ("TOTAL: 50.00\n".data ++ mid ++ "TOTAL: 193.00".data ++ post).length < s.length →
        matchTotalAt s = none) :
    extract_total (String.mk (pre ++ "SUBTOTAL: 50.00\n".data ++ mid ++
        "TOTAL: 193.00".data ++ post)) = some ⟨50, 1⟩ ∧
    (⟨50, 1⟩ : Frac) ≠ ⟨193, 1⟩ := by
  refine ⟨?_, by decide⟩
  have hLeq : pre ++ "SUBTOTAL: 50.00\n".data ++ mid ++ "TOTAL: 193.00".data ++ post =
      (pre ++ "SUB".data) ++
        ("TOTAL: 50.00\n".data ++ mid ++ "TOTAL: 193.00".data ++ post) := by
    rw [show "SUBTOTAL: 50.00\n".data = "SUB".data ++ "TOTAL: 50.00\n".data by decide]
    simp [List.append_assoc]
  show (if (pre ++ "SUBTOTAL: 50.00\n".data ++ mid ++
      "TOTAL: 193.00".data ++ post).isEmpty then none
    else searchTotalQ (pre ++ "SUBTOTAL: 50.00\n".data ++ mid ++
      "TOTAL: 193.00".data ++ post)) = some ⟨50, 1⟩
  rw [hLeq] at h ⊢
  rw [if_neg (by simp)]
  rw [searchTotal_append _ _ h]
  rw [show ("TOTAL: 50.00\n".data ++ mid ++ "TOTAL: 193.00".data ++ post) =
    'T' :: ("OTAL: 50.00\n".data ++ mid ++ "TOTAL: 193.00".data ++ post) from rfl]
  simp only [searchTotalQ]
  rw [show matchTotalAt ('T' :: ("OTAL: 50.00\n".data ++ mid ++ "TOTAL: 193.00".data ++ post)) =
    some (f64ofDecimal 50 0 2) from rfl]
  rw [show f64ofDecimal 50 0 2 = ⟨50, 1⟩ by decide]

/-- Witness for C10 at the concrete two-line text
`"SUBTOTAL: 50.00\nTOTAL: 193.00"`: no total pattern matches before the
`TOTAL` inside `SUBTOTAL`, and the extracted total is `50.00`. -/
theorem c10_subtotal_witness :
    (∀ s ∈ (([] : List Char) ++ "SUBTOTAL: 50.00\n".data ++ ([] : List Char) ++
        "TOTAL: 193.00".data ++ ([] : List Char)).tails,
      ("TOTAL: 50.00\n".data ++ ([] : List Char) ++ "TOTAL: 193.00".data ++
        ([] : List Char)).length < s.length → matchTotalAt s = none) ∧
    extract_total (String.mk (([] : List Char) ++ "SUBTOTAL: 50.00\n".data ++
      ([] : List Char) ++ "TOTAL: 193.00".data ++ ([] : List Char))) = some ⟨50, 1⟩ := by
  have h : ∀ s ∈ (([] : List Char) ++ "SUBTOTAL: 50.00\n".data ++ ([] : List Char) ++
      "TOTAL: 193.00".data ++ ([] : List Char)).tails,
      ("TOTAL: 50.00\n".data ++ ([] : List Char) ++ "TOTAL: 193.00".data ++
        ([] : List Char)).length < s.length → matchTotalAt s = none := by decide
  exact ⟨h, (c10_subtotal_confirmed [] [] [] h).1⟩

end InvoiceProc
